import Mathlib

/-!
Shallow embedding of the QIRAT-AI Recitation Evaluation Engine.

Each definition below translates one Python function of the repository:
  * `sm2`, `recordReviewUpdate`        — src/memorization_aid.py
  * `checkRuleAt` .. `validateText`    — src/tajweed_rules.py
  * `analyzeSegmentPitchDifferences`,
    `calculateSegmentStatistics`       — src/enhanced_pitch_analysis.py
  * `getSummaryStatistics`             — src/feedback.py
  * `segmentAudio`                     — src/analyze_pitch.py (identical copy in
                                         src/enhanced_pitch_analysis.py)
  * `alignByFirstWord`                 — src/analyze_pitch.py (identical copy in
                                         src/enhanced_pitch_analysis.py)

Machine floats of the source are modelled as rationals; Python `int(x)`
(truncation toward zero) is `pyInt`.  Fields of the source dictionaries whose
values require transcendental functions (semitone/cents values via `log2`,
note names, standard deviation via `sqrt`, formatted message strings) are not
used by any property verified here and are omitted from the records, with a
comment at each record noting the omission.
-/

namespace QiratAI

/-- Python `int(x)` applied to a real number: truncation toward zero. -/
def pyInt (x : ℚ) : ℤ := if 0 ≤ x then ⌊x⌋ else ⌈x⌉

/-! ### SM-2 spaced repetition (src/memorization_aid.py) -/

/-- Result triple of `_sm2`: `(interval, ease_factor, repetitions)`. -/
structure Sm2Result where
  interval : ℤ
  easeFactor : ℚ
  repetitions : ℕ
deriving DecidableEq

/-- Model of `_sm2(ease_factor, interval, repetitions, quality)` from
src/memorization_aid.py lines 19-32.  The ease factor is recomputed after the
`if quality < 3` branch, exactly as in the source (line 31), so it does not
depend on the branch taken.  `int(interval * ease_factor)` is `pyInt`. -/
def sm2 (easeFactor : ℚ) (interval : ℤ) (repetitions : ℕ) (quality : ℤ) :
    Sm2Result :=
  let p : ℤ × ℕ :=
    if quality < 3 then (1, 0)
    else
      (match repetitions with
        | 0 => 1
        | 1 => 6
        | _ => pyInt ((interval : ℚ) * easeFactor),
       repetitions + 1)
  { interval := p.1
    repetitions := p.2
    easeFactor :=
      max (13/10)
        (easeFactor + 1/10 -
          (5 - (quality : ℚ)) * (8/100 + (5 - (quality : ℚ)) * (2/100))) }

/-- The columns `(interval, ease_factor, repetitions, streak)` of a stored
`user_memorization` row read by `record_review`. -/
structure ReviewRow where
  interval : ℤ
  easeFactor : ℚ
  repetitions : ℕ
  streak : ℕ
deriving DecidableEq

/-- The updated state written back (and returned) by `record_review`. -/
structure ReviewState where
  interval : ℤ
  easeFactor : ℚ
  repetitions : ℕ
  streak : ℕ
  status : String
deriving DecidableEq

/-- Pure state-update core of `record_review` (src/memorization_aid.py lines
47-82): the read row defaults to `(0, 2.5, 0, 0)` when the verse was never
reviewed; `_sm2` is applied; `streak`/`status` follow the `quality >= 4`
overlay.  The SQLite read/write and the timestamps (`last_reviewed`,
`next_review = now + interval days`) are the I/O boundary and are not part of
the state arithmetic modelled here.  The source performs no validation of
`quality` whatsoever. -/
def recordReviewUpdate (row : Option ReviewRow) (quality : ℤ) : ReviewState :=
  let r := row.getD ⟨0, 5/2, 0, 0⟩
  let res := sm2 r.easeFactor r.interval r.repetitions quality
  let streak := if 4 ≤ quality then r.streak + 1 else 0
  let status :=
    if 4 ≤ quality then (if 7 ≤ r.streak + 1 then "mastered" else "learning")
    else "learning"
  ⟨res.interval, res.easeFactor, res.repetitions, streak, status⟩

/-! ### Tajweed rule engine (src/tajweed_rules.py)

A rule record keeps the fields that the validation algorithm reads: `name`,
`trigger`, `followed_by` and `severity`.  The purely descriptive fields of the
source table (`description`, `example`, `audio_characteristics`) and the
formatted `message`/`description`/`example`/`audio_characteristics` entries of
an emitted error are echoes of those constants and are omitted. -/

structure TajweedRule where
  name : String
  trigger : Option (List Char)
  followedBy : List Char
  severity : String
deriving DecidableEq

/-- Rule "Ghunnah" of ENHANCED_TAJWEED_RULES. -/
def ghunnahRule : TajweedRule :=
  ⟨"Ghunnah", some ['ن', 'م'], ['ي', 'و', 'م', 'ن'], "high"⟩

/-- Rule "Ikhfa" of ENHANCED_TAJWEED_RULES. -/
def ikhfaRule : TajweedRule :=
  ⟨"Ikhfa", some ['ن'],
   ['ت', 'ث', 'ج', 'د', 'ذ', 'ز', 'س', 'ش', 'ص', 'ض', 'ط', 'ظ', 'ف', 'ق', 'ك'],
   "medium"⟩

/-- Rule "Iqlab" of ENHANCED_TAJWEED_RULES. -/
def iqlabRule : TajweedRule := ⟨"Iqlab", some ['ن'], ['ب'], "high"⟩

/-- Rule "Idgham with Ghunnah" of ENHANCED_TAJWEED_RULES. -/
def idghamGhunnahRule : TajweedRule :=
  ⟨"Idgham with Ghunnah", some ['ن'], ['ي', 'ن', 'م', 'و'], "high"⟩

/-- Rule "Idgham without Ghunnah" of ENHANCED_TAJWEED_RULES. -/
def idghamNoGhunnahRule : TajweedRule :=
  ⟨"Idgham without Ghunnah", some ['ن'], ['ل', 'ر'], "high"⟩

/-- Rule "Qalqalah" of ENHANCED_TAJWEED_RULES: `trigger` is `None`. -/
def qalqalahRule : TajweedRule :=
  ⟨"Qalqalah", none, ['ق', 'ط', 'ب', 'ج', 'د'], "medium"⟩

/-- Rule "Madd Al-Muttasil" of ENHANCED_TAJWEED_RULES. -/
def maddMuttasilRule : TajweedRule :=
  ⟨"Madd Al-Muttasil", some ['ا', 'و', 'ي'], ['ء'], "high"⟩

/-- Rule "Madd Al-Munfasil" of ENHANCED_TAJWEED_RULES. -/
def maddMunfasilRule : TajweedRule :=
  ⟨"Madd Al-Munfasil", some ['ا', 'و', 'ي'], ['ء'], "low"⟩

/-- Rule "Waqf (Stopping)" of ENHANCED_TAJWEED_RULES: `trigger` is `None` and
`followed_by` is the empty list. -/
def waqfRule : TajweedRule := ⟨"Waqf (Stopping)", none, [], "medium"⟩

/-- ENHANCED_TAJWEED_RULES (src/tajweed_rules.py lines 29-144), in source
order. -/
def enhancedTajweedRules : List TajweedRule :=
  [ghunnahRule, ikhfaRule, iqlabRule, idghamGhunnahRule, idghamNoGhunnahRule,
   qalqalahRule, maddMuttasilRule, maddMunfasilRule, waqfRule]

/-- One emitted violation of `_check_rule`; positional and classification
fields only (see the section comment for the omitted echo fields). -/
structure TajweedError where
  rule : String
  wordIndex : ℕ
  charIndex : ℕ
  severity : String
deriving DecidableEq

/-- Python `text.split()`: split on whitespace runs, discarding empty words.
Modelled as `splitOnP isWhitespace` (which keeps empty chunks between
consecutive separators) followed by dropping the empty chunks. -/
def pySplit (text : List Char) : List (List Char) :=
  (text.splitOnP Char.isWhitespace).filter (fun w => decide (w ≠ []))

/-- The body of the inner loop of `_check_rule` (src/tajweed_rules.py lines
223-253) at word `word` (word index `wIdx`), character `c` at index `i`.
Python truthiness of `rule.get("trigger")`: both `None` and an empty list are
falsy, hence the `Option.getD [] ≠ []` test.  The first branch emits an error
when `c` is in the trigger set and the next character of the same word is in
`followed_by`; the `elif` branch (no trigger) emits an error when `c` is the
word's last character and is in `followed_by`. -/
def checkRuleAt (rule : TajweedRule) (wIdx : ℕ) (word : List Char) (i : ℕ)
    (c : Char) : Option TajweedError :=
  let trig := rule.trigger.getD []
  if trig ≠ [] then
    if c ∈ trig ∧ i + 1 < word.length then
      if word.getD (i + 1) ' ' ∈ rule.followedBy then
        some ⟨rule.name, wIdx, i, rule.severity⟩
      else none
    else none
  else
    if c ∈ rule.followedBy ∧ i = word.length - 1 then
      some ⟨rule.name, wIdx, i, rule.severity⟩
    else none

/-- The `for i, char in enumerate(word)` loop of `_check_rule` over one
word. -/
def checkWord (rule : TajweedRule) (wIdx : ℕ) (word : List Char) :
    List TajweedError :=
  (List.range word.length).filterMap
    (fun i => checkRuleAt rule wIdx word i (word.getD i ' '))

/-- The `for w_idx, word in enumerate(words)` loop of `_check_rule`,
carrying the running word index. -/
def checkWords (rule : TajweedRule) (wIdx : ℕ) :
    List (List Char) → List TajweedError
  | [] => []
  | w :: ws => checkWord rule wIdx w ++ checkWords rule (wIdx + 1) ws

/-- Model of `EnhancedTajweedValidator._check_rule(text, rule)` (src/tajweed_rules.py
lines 217-255). -/
def checkRule (text : List Char) (rule : TajweedRule) : List TajweedError :=
  checkWords rule 0 (pySplit text)

/-- Points deducted per error: 10 for "high" severity, 5 for "medium",
2 otherwise (src/tajweed_rules.py lines 198-204). -/
def severityDeduction (sev : String) : ℤ :=
  if sev = "high" then 10 else if sev = "medium" then 5 else 2

/-- The report of `validate_text`; the `warnings` list (always empty in the
source) and the `phonemes` list (produced by `extract_phonemes`, read by no
claim) are omitted. -/
structure TajweedReport where
  score : ℤ
  errors : List TajweedError
  totalRulesChecked : ℕ
deriving DecidableEq

/-- Model of `EnhancedTajweedValidator.validate_text` (src/tajweed_rules.py lines
183-215): collect the errors of every rule in table order; starting from 100,
deduct per error according to its rule's severity; clamp the score at 0. -/
def validateText (text : List Char) : TajweedReport :=
  let errors := (enhancedTajweedRules.map (checkRule text)).flatten
  let score :=
    max 0 (100 - (errors.map (fun e => severityDeduction e.severity)).sum)
  ⟨score, errors, enhancedTajweedRules.length⟩

/-- The text `"مِن بَعْدِ"` of the spec's Iqlab scenario, as its list of
code points (م kasra ن space ب fatha ع sukun د kasra). -/
def iqlabExample : List Char := "مِن بَعْدِ".toList

/-! ### Pitch-difference scorer (src/enhanced_pitch_analysis.py)

Pitch contours are lists of frame frequencies in Hz, a value ≤ 0 meaning
unvoiced.  The deviation records of the source also carry
`semitone_diff`/`cents_diff`/`note_transition`/`user_note`/`ref_note`
(computed via `log2`, hence not rational) and a formatted `message`; no claim
reads those fields and they are omitted here. -/

/-- One deviation emitted by `analyze_segment_pitch_differences`.
`isHigher` models the `direction` field: `'higher' if freq_diff > 0 else
'lower'`. -/
structure PitchDeviation where
  timestamp : ℚ
  segmentTime : ℚ
  userFreq : ℚ
  refFreq : ℚ
  freqDiff : ℚ
  isHigher : Bool
deriving DecidableEq

/-- Model of `analyze_segment_pitch_differences(user_pitch, ref_pitch, hop_length, sr,
threshold, segment_start_time)` (src/enhanced_pitch_analysis.py lines
457-493): iterate frames `0 .. min(len(user), len(ref)) - 1`; for pairs with
both frequencies > 0 and `|user - ref| > threshold` (strictly), emit a
deviation. -/
def analyzeSegmentPitchDifferences (userPitch refPitch : List ℚ)
    (hopLength sr threshold segmentStartTime : ℚ) : List PitchDeviation :=
  (List.range (min userPitch.length refPitch.length)).filterMap (fun i =>
    let userFreq := userPitch.getD i 0
    let refFreq := refPitch.getD i 0
    if 0 < userFreq ∧ 0 < refFreq then
      let frameTime := (i : ℚ) * hopLength / sr
      let freqDiff := userFreq - refFreq
      if threshold < |freqDiff| then
        some ⟨segmentStartTime + frameTime, frameTime, userFreq, refFreq,
          freqDiff, decide (0 < freqDiff)⟩
      else none
    else none)

/-- The list of frequency differences `user - ref` over the voiced frame
pairs of the first `min(len(user), len(ref))` frames — the `differences`
list built by the loop of `calculate_segment_statistics` (lines 518-530). -/
def voicedDiffs (userPitch refPitch : List ℚ) : List ℚ :=
  (List.range (min userPitch.length refPitch.length)).filterMap (fun i =>
    let u := userPitch.getD i 0
    let r := refPitch.getD i 0
    if 0 < u ∧ 0 < r then some (u - r) else none)

/-- Statistics record of `calculate_segment_statistics`; the cents fields
(via `log2`), `std_deviation_hz` (via `sqrt`), `median_deviation_hz` and the
`valid_frames` key (present only in the main branch, always equal to
`pitch_differences_count`) are omitted. -/
structure SegmentStatistics where
  totalFrames : ℕ
  pitchDifferencesCount : ℕ
  averageDeviationHz : ℚ
  maxDeviationHz : ℚ
  highPitchCount : ℕ
  lowPitchCount : ℕ
  accuracyPercentage : ℚ
deriving DecidableEq

/-- Model of `calculate_segment_statistics(user_pitch, ref_pitch, hop_length, sr)`
(src/enhanced_pitch_analysis.py lines 495-577).  Two early returns: when
`min_len == 0` and when no voiced pair exists, both with accuracy 100.
Otherwise statistics over all voiced pairs: mean and max of the absolute
differences (`np.max` over the non-negative values is modelled by a fold with
seed 0), counts of strictly positive and strictly negative differences, and
`accuracy = (count(|diff| <= 50) / count) * 100`.  The `hop_length` and `sr`
arguments are unused by the modelled fields. -/
def calculateSegmentStatistics (userPitch refPitch : List ℚ) :
    SegmentStatistics :=
  let minLen := min userPitch.length refPitch.length
  if minLen = 0 then ⟨0, 0, 0, 0, 0, 0, 100⟩
  else
    let diffs := voicedDiffs userPitch refPitch
    if diffs = [] then ⟨minLen, 0, 0, 0, 0, 0, 100⟩
    else
      let absDiffs := diffs.map (fun d => |d|)
      let high := (diffs.filter (fun d => decide (0 < d))).length
      let low := (diffs.filter (fun d => decide (d < 0))).length
      let avg := absDiffs.sum / (absDiffs.length : ℚ)
      let mx := absDiffs.foldr max 0
      let thresholdFrames := (absDiffs.filter (fun d => decide (d ≤ 50))).length
      let accuracy := ((thresholdFrames : ℚ) / (diffs.length : ℚ)) * 100
      ⟨minLen, diffs.length, avg, mx, high, low, accuracy⟩

/-! ### Feedback summary (src/feedback.py) -/

/-- One item of the feedback list consumed by `get_summary_statistics`; of
its source fields (`timestamp`, `message`, `freq_diff`, `note_transition`,
`cents_diff`, `user_note`, `ref_note`) only `freq_diff` and `cents_diff` are
read by the summary. -/
structure FeedbackItem where
  freqDiff : ℚ
  centsDiff : ℚ
deriving DecidableEq

/-- Summary record of `get_summary_statistics`. -/
structure SummaryStatistics where
  totalDifferences : ℕ
  averageDeviationHz : ℚ
  maxDeviationHz : ℚ
  averageDeviationCents : ℚ
  mostCommonIssue : String
  accuracyPercentage : ℚ
  highPitchCount : ℕ
  lowPitchCount : ℕ
deriving DecidableEq

/-- Model of `get_summary_statistics(feedback_list)` (src/feedback.py lines 61-109).
The empty list returns the fixed default record.  Otherwise `total_frames`
is set to `len(feedback_list)` and
`accuracy = max(0, 100 - (len(feedback_list) / max(total_frames, 1)) * 100)`,
exactly as written in the source (lines 97-98); `np.max` over the
non-negative absolute differences is modelled by a fold with seed 0. -/
def getSummaryStatistics (fl : List FeedbackItem) : SummaryStatistics :=
  if fl = [] then ⟨0, 0, 0, 0, "None", 100, 0, 0⟩
  else
    let freqDiffs := fl.map (fun it => |it.freqDiff|)
    let centsDiffs := fl.map (fun it => |it.centsDiff|)
    let avgFreq := freqDiffs.sum / (freqDiffs.length : ℚ)
    let maxFreq := freqDiffs.foldr max 0
    let avgCents := centsDiffs.sum / (centsDiffs.length : ℚ)
    let high := (fl.filter (fun it => decide (0 < it.freqDiff))).length
    let low := (fl.filter (fun it => decide (it.freqDiff < 0))).length
    let issue :=
      if low < high then "Singing too high"
      else if high < low then "Singing too low"
      else "Mixed pitch issues"
    let totalFrames := fl.length
    let accuracy :=
      max 0 (100 - ((fl.length : ℚ) / ((max totalFrames 1 : ℕ) : ℚ)) * 100)
    ⟨fl.length, avgFreq, maxFreq, avgCents, issue, accuracy, high, low⟩

/-! ### Fixed-interval segmenter (src/analyze_pitch.py lines 135-142) -/

/-- Chunks of size `k + 1`: the list `y[start:start+k+1]` for
`start = 0, k+1, 2(k+1), ...` produced by the `range(0, total_len,
samples_per_interval)` loop of `segment_audio` when
`samples_per_interval = k + 1`. -/
def chunksPos (k : ℕ) : List ℚ → List (List ℚ)
  | [] => []
  | x :: xs => (x :: xs).take (k + 1) :: chunksPos k ((x :: xs).drop (k + 1))
termination_by l => l.length
decreasing_by
  simp only [List.length_drop, List.length_cons]
  omega

/-- Model of `segment_audio(y, sr, interval)`: `samples_per_interval =
int(interval * sr)`; slices of that length are appended, the final slice
clipped to the signal's end.  A zero `samples_per_interval` makes Python's
`range` raise `ValueError` (modelled as `none`); a negative one makes the
`range` empty, so no segment is produced. -/
def segmentAudio (y : List ℚ) (sr interval : ℚ) : Option (List (List ℚ)) :=
  let spi := pyInt (interval * sr)
  if spi = 0 then none
  else if spi < 0 then some []
  else some (chunksPos (spi.toNat - 1) y)

/-! ### Silence-onset aligner (src/analyze_pitch.py lines 116-133)

`align_by_first_word` loads the two audio files; the alignment arithmetic on
the two sample lists is modelled here.  `np.argmax(np.abs(y) > threshold)`
is the index of the first sample whose absolute value strictly exceeds the
threshold, and 0 when no sample does. -/

/-- Index of the first element with `threshold < |x|`, if any. -/
def firstExceed (thr : ℚ) : List ℚ → Option ℕ
  | [] => none
  | x :: xs => if thr < |x| then some 0 else (firstExceed thr xs).map (· + 1)

/-- Model of `int(np.argmax(np.abs(y) > threshold))`: first exceeding index, 0 when
none exceeds (`np.argmax` of an all-False array is 0). -/
def onsetIndex (l : List ℚ) (thr : ℚ) : ℕ := (firstExceed thr l).getD 0

/-- Core of `align_by_first_word`: `offset = max(0, ref_start - user_start)`
(truncated subtraction on ℕ) and `aligned_ref_y = ref_y[offset : offset +
len(user_y)]`.  The source returns the aligned reference; the internally
computed offset is exposed as the second component (the spec's §4.1 contract
returns both). -/
def alignByFirstWord (user ref : List ℚ) (thr : ℚ) : List ℚ × ℕ :=
  let userStart := onsetIndex user thr
  let refStart := onsetIndex ref thr
  let offset := refStart - userStart
  ((ref.drop offset).take user.length, offset)

end QiratAI

namespace QiratAI

/-! ### Theorems about SM-2 -/

/-- C6: after every SM-2 review, regardless of the quality value, the
resulting ease factor equals
`max(1.3, ef + 0.1 - (5-q)*(0.08 + (5-q)*0.02))`, and the invariant
`easeFactor >= 1.3` is preserved. -/
theorem sm2_easeFactor_formula (ef : ℚ) (i : ℤ) (r : ℕ) (q : ℤ) :
    (sm2 ef i r q).easeFactor =
      max (13/10)
        (ef + 1/10 - (5 - (q : ℚ)) * (8/100 + (5 - (q : ℚ)) * (2/100))) ∧
    (13/10 : ℚ) ≤ (sm2 ef i r q).easeFactor := by
  refine ⟨rfl, ?_⟩
  exact le_max_left _ _

/-- C3 counterexample: with ease factor 2.5, interval 3, repetitions 2 and
quality 4, the code computes `int(3 * 2.5) = 7`, while the claim's
`round(3 * 2.5) = 8`. -/
theorem sm2_interval_not_round :
    (sm2 (5/2) 3 2 4).interval ≠ round ((3 : ℚ) * (5/2)) := by
  norm_num [sm2, pyInt, round_eq]

/-- C3 amended: for quality >= 3, the new interval is 1 when repetitions = 0,
6 when repetitions = 1, and `int(interval * easeFactor)` (truncation toward
zero, not rounding) when repetitions >= 2; repetitions are incremented. -/
theorem sm2_interval_formula (ef : ℚ) (i : ℤ) (r : ℕ) (q : ℤ) (hq : 3 ≤ q) :
    (sm2 ef i r q).repetitions = r + 1 ∧
    (r = 0 → (sm2 ef i r q).interval = 1) ∧
    (r = 1 → (sm2 ef i r q).interval = 6) ∧
    (2 ≤ r → (sm2 ef i r q).interval = pyInt ((i : ℚ) * ef)) := by
  have hq' : ¬ q < 3 := by omega
  refine ⟨?_, fun h0 => ?_, fun h1 => ?_, fun h2 => ?_⟩
  · simp [sm2, hq']
  · subst h0; simp [sm2, hq']
  · subst h1; simp [sm2, hq']
  · obtain ⟨m, rfl⟩ : ∃ m, r = m + 2 := ⟨r - 2, by omega⟩
    simp [sm2, hq']

/-- Witness for C3's amended theorem at ease factor 2, interval 10,
repetitions 2, quality 3. -/
theorem sm2_interval_formula_witness :
    (sm2 2 10 2 3).repetitions = 2 + 1 ∧
    (2 = 0 → (sm2 2 10 2 3).interval = 1) ∧
    (2 = 1 → (sm2 2 10 2 3).interval = 6) ∧
    (2 ≤ 2 → (sm2 2 10 2 3).interval = pyInt ((10 : ℚ) * 2)) :=
  sm2_interval_formula 2 10 2 3 (by norm_num)

/-- C5 counterexample: a review with quality 6 (outside [1,5]) is not
rejected: `record_review` performs the full SM-2 update, producing the state
`(interval 1, ease factor 2.66, repetitions 1, streak 1, learning)` from a
fresh row instead of failing. -/
theorem recordReview_accepts_out_of_range :
    recordReviewUpdate none 6 = ⟨1, 133/50, 1, 1, "learning"⟩ ∧
    (recordReviewUpdate none 6).repetitions ≠ 0 := by
  constructor
  · simp only [recordReviewUpdate, sm2, ReviewState.mk.injEq]
    norm_num [max_eq_right]
  · simp [recordReviewUpdate, sm2]

/-- C5 amended: `record_review` performs no validation of the quality rating.
A quality above 5 takes the ordinary `quality >= 3` path (repetitions
incremented); a quality below 1 takes the `quality < 3` path (interval 1,
repetitions 0, streak 0, status learning).  The state update is always
performed. -/
theorem recordReview_no_quality_validation (row : Option ReviewRow) (q : ℤ) :
    (5 < q →
      (recordReviewUpdate row q).repetitions =
        (row.getD ⟨0, 5/2, 0, 0⟩).repetitions + 1) ∧
    (q < 1 →
      (recordReviewUpdate row q).interval = 1 ∧
      (recordReviewUpdate row q).repetitions = 0 ∧
      (recordReviewUpdate row q).streak = 0 ∧
      (recordReviewUpdate row q).status = "learning") := by
  constructor
  · intro hq
    have h3 : ¬ q < 3 := by omega
    simp [recordReviewUpdate, sm2, h3]
  · intro hq
    have h3 : q < 3 := by omega
    have h4 : ¬ 4 ≤ q := by omega
    refine ⟨?_, ?_, ?_, ?_⟩ <;> simp [recordReviewUpdate, sm2, h3, h4]

/-- Witness for C5's amended theorem at qualities 6 and 0 on a fresh row. -/
theorem recordReview_no_quality_validation_witness :
    ((recordReviewUpdate none 6).repetitions =
      ((none : Option ReviewRow).getD ⟨0, 5/2, 0, 0⟩).repetitions + 1) ∧
    ((recordReviewUpdate none 0).interval = 1 ∧
      (recordReviewUpdate none 0).repetitions = 0 ∧
      (recordReviewUpdate none 0).streak = 0 ∧
      (recordReviewUpdate none 0).status = "learning") :=
  ⟨(recordReview_no_quality_validation none 6).1 (by norm_num),
   (recordReview_no_quality_validation none 0).2 (by norm_num)⟩

end QiratAI

namespace QiratAI

/-! ### Theorems about the Tajweed rule engine -/

/-- Helper: a rule whose per-position check never fires on a word produces no
errors on that word. -/
theorem checkWord_eq_nil {rule : TajweedRule} {wIdx : ℕ} {word : List Char}
    (h : ∀ i ∈ List.range word.length,
      checkRuleAt rule wIdx word i (word.getD i ' ') = none) :
    checkWord rule wIdx word = [] := by
  simpa [checkWord, List.filterMap_eq_nil_iff] using h

/-- Helper: `checkWords` is empty when every word yields no errors at every
word index. -/
theorem checkWords_eq_nil {rule : TajweedRule} {ws : List (List Char)}
    (h : ∀ w ∈ ws, ∀ wIdx : ℕ, checkWord rule wIdx w = []) :
    ∀ wIdx : ℕ, checkWords rule wIdx ws = [] := by
  induction ws with
  | nil => intro wIdx; rfl
  | cons w ws ih =>
      intro wIdx
      have hw := h w (by simp)
      have hrest := ih (fun v hv => h v (by simp [hv]))
      simp [checkWords, hw wIdx, hrest (wIdx + 1)]

/-- C1 counterexample: on the text `"مِن بَعْدِ"` the validator emits no
violation at all (and gives score 100): the ن ends the first word and the ب
begins the second, and `_check_rule` only pairs characters inside one word, so
the Iqlab rule cannot fire; no other rule matches either. -/
theorem validateText_iqlabExample_no_violation :
    (validateText iqlabExample).errors = [] ∧
    (validateText iqlabExample).score = 100 := by
  constructor
  · decide
  · decide

/-- C1 amended: the text `"مِن بَعْدِ"` produces zero violations and score
100 (counterexample above); and every text with no within-word trigger/follow
adjacency and no word whose final character is in the follow set of a
no-trigger rule gets score 100 and zero violations. -/
theorem validateText_no_match (text : List Char)
    (h1 : ∀ rule ∈ enhancedTajweedRules, ∀ word ∈ pySplit text,
      ∀ i ∈ List.range word.length,
        word.getD i ' ' ∈ rule.trigger.getD [] → i + 1 < word.length →
          word.getD (i + 1) ' ' ∉ rule.followedBy)
    (h2 : ∀ rule ∈ enhancedTajweedRules, rule.trigger.getD [] = [] →
      ∀ word ∈ pySplit text,
        word.getD (word.length - 1) ' ' ∉ rule.followedBy) :
    (validateText text).errors = [] ∧ (validateText text).score = 100 := by
  have herr : ∀ rule ∈ enhancedTajweedRules, checkRule text rule = [] := by
    intro rule hrule
    apply checkWords_eq_nil
    intro w hw wIdx
    apply checkWord_eq_nil
    intro i hi
    by_cases ht : rule.trigger.getD [] = []
    · have hlast := h2 rule hrule ht w hw
      simp only [checkRuleAt, ht, ne_eq, not_true_eq_false, if_false,
        ite_eq_right_iff, and_imp]
      intro hmem hidx
      exact absurd (hidx ▸ hmem) hlast
    · have htrig := h1 rule hrule w hw i hi
      simp only [checkRuleAt, ht, ne_eq, not_false_eq_true, if_true]
      by_cases hc : w.getD i ' ' ∈ rule.trigger.getD [] ∧ i + 1 < w.length
      · rw [if_pos hc, if_neg (htrig hc.1 hc.2)]
      · rw [if_neg hc]
  have hjoin : (validateText text).errors = [] := by
    simp only [validateText, List.flatten_eq_nil_iff]
    intro l hl
    obtain ⟨rule, hrule, rfl⟩ := List.mem_map.mp hl
    exact herr rule hrule
  refine ⟨hjoin, ?_⟩
  have hscore : (validateText text).score =
      max 0 (100 - ((validateText text).errors.map
        (fun e => severityDeduction e.severity)).sum) := rfl
  rw [hjoin] at hscore
  simpa using hscore

/-- Witness for C1's amended theorem on the one-word text `"سلم"`, which has
no trigger/follow adjacency and no rule-matching final character. -/
theorem validateText_no_match_witness :
    (validateText "سلم".toList).errors = [] ∧
    (validateText "سلم".toList).score = 100 :=
  validateText_no_match "سلم".toList (by decide) (by decide)

/-- Helper: every error produced by `checkWord` carries its rule's name. -/
theorem checkWord_rule_name {rule : TajweedRule} {wIdx : ℕ} {word : List Char}
    {e : TajweedError} (h : e ∈ checkWord rule wIdx word) :
    e.rule = rule.name := by
  simp only [checkWord, List.mem_filterMap] at h
  obtain ⟨i, _, hi⟩ := h
  simp only [checkRuleAt] at hi
  split at hi
  · split at hi
    · split at hi
      · cases hi; rfl
      · cases hi
    · cases hi
  · split at hi
    · cases hi; rfl
    · cases hi

/-- Helper: every error produced by `checkWords` carries its rule's name. -/
theorem checkWords_rule_name {rule : TajweedRule} {ws : List (List Char)}
    {wIdx : ℕ} {e : TajweedError} (h : e ∈ checkWords rule wIdx ws) :
    e.rule = rule.name := by
  induction ws generalizing wIdx with
  | nil => cases h
  | cons w ws ih =>
      simp only [checkWords, List.mem_append] at h
      rcases h with h | h
      · exact checkWord_rule_name h
      · exact ih h

/-- C9: the "Waqf (Stopping)" rule (no trigger, empty follow set) never
fires: `_check_rule` returns no error for it on any text, and no error of
`validate_text` ever carries its name (so it never reduces the score). -/
theorem waqf_never_fires (text : List Char) :
    checkRule text waqfRule = [] ∧
    ((validateText text).errors.all
      (fun e => e.rule != "Waqf (Stopping)")) = true := by
  have hwaqf : ∀ t : List Char, checkRule t waqfRule = [] := by
    intro t
    apply checkWords_eq_nil
    intro w _ wIdx
    apply checkWord_eq_nil
    intro i _
    simp [checkRuleAt, waqfRule]
  refine ⟨hwaqf text, ?_⟩
  rw [List.all_eq_true]
  intro e he
  simp only [validateText, List.mem_flatten] at he
  obtain ⟨l, hl, hel⟩ := he
  obtain ⟨rule, hrule, rfl⟩ := List.mem_map.mp hl
  have hname : e.rule = rule.name := by
    simpa [checkRule] using checkWords_rule_name (hel : e ∈ checkWords rule 0 _)
  by_cases hw : rule = waqfRule
  · subst hw
    rw [hwaqf text] at hel
    cases hel
  · have : rule.name ≠ "Waqf (Stopping)" := by
      fin_cases hrule <;> simp_all [ghunnahRule, ikhfaRule, iqlabRule,
        idghamGhunnahRule, idghamNoGhunnahRule, qalqalahRule, maddMuttasilRule,
        maddMunfasilRule, waqfRule]
    simp [hname, this]

end QiratAI

namespace QiratAI

/-! ### Theorems about the pitch-difference scorer and feedback summary -/

/-- The reference contour of the spec's end-to-end scenario. -/
def c2Ref : List ℚ := [440, 440, 440, 440, 440]

/-- The user contour of the spec's end-to-end scenario. -/
def c2User : List ℚ := [440, 450, 430, 460, 440]

/-- Helper: the voiced differences of the scenario contours. -/
theorem c2_voicedDiffs :
    voicedDiffs [440, 450, 430, 460, 440] [440, 440, 440, 440, 440] =
      [0, 10, -10, 20, 0] := by
  have hrange : List.range 5 = [0, 1, 2, 3, 4] := rfl
  simp only [voicedDiffs, List.length_cons, List.length_nil]
  norm_num [hrange, List.filterMap_cons]

/-- Helper: the scenario emits the single deviation of frame 3. -/
theorem c2_deviations_eval :
    analyzeSegmentPitchDifferences c2User c2Ref 512 44100 10 0 =
      [⟨1536/44100, 1536/44100, 460, 440, 20, true⟩] := by
  have hrange : List.range 5 = [0, 1, 2, 3, 4] := rfl
  simp only [analyzeSegmentPitchDifferences, c2User, c2Ref, List.length_cons,
    List.length_nil]
  norm_num [hrange, List.filterMap_cons]

/-- C2 counterexample: on reference `[440,440,440,440,440]`, user
`[440,450,430,460,440]`, hop 512, sr 44100, threshold 10, the scorer does not
emit 3 deviations: the differences at frames 1 and 2 are `+10` and `-10`,
and `|±10| > 10` is false under the source's strict comparison, so only
frame 3 (difference `+20`) is emitted. -/
theorem analyzeSegment_scenario_not_three :
    (analyzeSegmentPitchDifferences c2User c2Ref 512 44100 10 0).length ≠ 3 := by
  rw [c2_deviations_eval]
  simp

/-- C2 amended: the scenario emits exactly one deviation, at frame 3
(segment time `3 * 512 / 44100`, difference `+20` Hz, direction higher),
while the aggregate statistics over the same pair have `highCount == 2`
and `lowCount == 1` as the claim states. -/
theorem analyzeSegment_scenario_single_deviation :
    analyzeSegmentPitchDifferences c2User c2Ref 512 44100 10 0 =
      [⟨1536/44100, 1536/44100, 460, 440, 20, true⟩] ∧
    (calculateSegmentStatistics c2User c2Ref).highPitchCount = 2 ∧
    (calculateSegmentStatistics c2User c2Ref).lowPitchCount = 1 := by
  refine ⟨c2_deviations_eval, ?_, ?_⟩ <;>
    · simp only [calculateSegmentStatistics, c2User, c2Ref, List.length_cons,
        List.length_nil, c2_voicedDiffs]
      norm_num [List.filter, List.cons_ne_nil]

/-- C7: the statistics aggregate over all voiced frame pairs (the counts are
those of the full voiced-difference list, not only the pairs exceeding the
deviation threshold), `accuracyPct = 100 * count(|diff| <= 50) /
totalVoicedPairs`, and zero voiced pairs is not an error: the statistics
are produced with accuracy 100. -/
theorem calculateSegmentStatistics_spec (up rp : List ℚ) :
    (calculateSegmentStatistics up rp).pitchDifferencesCount =
      (voicedDiffs up rp).length ∧
    (calculateSegmentStatistics up rp).highPitchCount =
      ((voicedDiffs up rp).filter (fun d => decide (0 < d))).length ∧
    (calculateSegmentStatistics up rp).lowPitchCount =
      ((voicedDiffs up rp).filter (fun d => decide (d < 0))).length ∧
    (calculateSegmentStatistics up rp).accuracyPercentage =
      (if (voicedDiffs up rp).length = 0 then 100
       else 100 * (((voicedDiffs up rp).filter
              (fun d => decide (|d| ≤ 50))).length : ℚ) /
            ((voicedDiffs up rp).length : ℚ)) := by
  by_cases hm : min up.length rp.length = 0
  · have hv : voicedDiffs up rp = [] := by simp [voicedDiffs, hm]
    simp [calculateSegmentStatistics, hm, hv]
  · by_cases hd : voicedDiffs up rp = []
    · simp [calculateSegmentStatistics, hm, hd]
    · have hlen : (voicedDiffs up rp).length ≠ 0 := by
        simpa [List.length_eq_zero] using hd
      refine ⟨?_, ?_, ?_, ?_⟩
      · simp only [calculateSegmentStatistics, if_neg hm, if_neg hd]
      · simp only [calculateSegmentStatistics, if_neg hm, if_neg hd]
      · simp only [calculateSegmentStatistics, if_neg hm, if_neg hd]
      · simp only [calculateSegmentStatistics, if_neg hm, if_neg hd]
        rw [if_neg hlen]
        have hfil : (((voicedDiffs up rp).map (fun d => |d|)).filter
            (fun d => decide (d ≤ 50))).length =
            ((voicedDiffs up rp).filter (fun d => decide (|d| ≤ 50))).length := by
          rw [List.filter_map]
          rw [List.length_map]
          rfl
        rw [hfil]
        ring

/-- C10: the summary's accuracy is 100 exactly on the empty feedback list and
0 on every non-empty one — never strictly between — with
`most_common_issue` `"None"` on the empty list and `"Mixed pitch issues"`
whenever the high and low counts tie on a non-empty list. -/
theorem getSummaryStatistics_spec (fl : List FeedbackItem) :
    ((getSummaryStatistics fl).accuracyPercentage = 0 ∨
     (getSummaryStatistics fl).accuracyPercentage = 100) ∧
    (getSummaryStatistics fl).accuracyPercentage =
      (if fl = [] then 100 else 0) ∧
    (getSummaryStatistics []).mostCommonIssue = "None" ∧
    ((getSummaryStatistics fl).mostCommonIssue = "Mixed pitch issues" ∨
      fl = [] ∨
      (fl.filter (fun it => decide (0 < it.freqDiff))).length ≠
        (fl.filter (fun it => decide (it.freqDiff < 0))).length) := by
  have hempty : (getSummaryStatistics []).mostCommonIssue = "None" := by
    simp [getSummaryStatistics]
  by_cases h : fl = []
  · subst h
    refine ⟨Or.inr ?_, ?_, hempty, Or.inr (Or.inl rfl)⟩ <;>
      simp [getSummaryStatistics]
  · have hlen : (1 : ℕ) ≤ fl.length := by
      have := List.length_pos.mpr h
      omega
    have hacc : (getSummaryStatistics fl).accuracyPercentage = 0 := by
      simp only [getSummaryStatistics, h, if_false]
      have hmax : max fl.length 1 = fl.length := Nat.max_eq_left hlen
      rw [hmax]
      have hne : ((fl.length : ℚ)) ≠ 0 :=
        Nat.cast_ne_zero.mpr (by omega)
      rw [div_self hne]
      norm_num
    refine ⟨Or.inl hacc, ?_, hempty, ?_⟩
    · rw [if_neg h]; exact hacc
    · by_cases ht : (fl.filter (fun it => decide (0 < it.freqDiff))).length =
        (fl.filter (fun it => decide (it.freqDiff < 0))).length
      · left
        simp only [getSummaryStatistics, h, if_false]
        rw [if_neg (by omega), if_neg (by omega)]
      · right; right; exact ht

end QiratAI

namespace QiratAI

/-! ### Theorems about the fixed-interval segmenter -/

/-- Unfolding lemma: `chunksPos` on the empty list. -/
theorem chunksPos_nil (k : ℕ) : chunksPos k [] = [] := by
  rw [chunksPos.eq_def]

/-- Unfolding lemma: `chunksPos` on a non-empty list takes one chunk and
recurses on the rest. -/
theorem chunksPos_cons (k : ℕ) (x : ℚ) (xs : List ℚ) :
    chunksPos k (x :: xs) =
      (x :: xs).take (k + 1) :: chunksPos k ((x :: xs).drop (k + 1)) := by
  rw [chunksPos.eq_def]

/-- Helper: the chunks concatenate back to the input list (so no sample is
dropped and the order is preserved). -/
theorem chunksPos_flatten (k : ℕ) (l : List ℚ) :
    (chunksPos k l).flatten = l := by
  suffices H : ∀ n : ℕ, ∀ l : List ℚ, l.length ≤ n →
      (chunksPos k l).flatten = l from H l.length l le_rfl
  intro n
  induction n with
  | zero =>
      intro l hl
      have : l = [] := List.length_eq_zero.mp (by omega)
      subst this
      simp [chunksPos_nil]
  | succ n ih =>
      intro l hl
      match l with
      | [] => simp [chunksPos_nil]
      | x :: xs =>
          rw [chunksPos_cons, List.flatten_cons]
          have hlt : ((x :: xs).drop (k + 1)).length ≤ n := by
            simp only [List.length_drop, List.length_cons]
            simp only [List.length_cons] at hl
            omega
          rw [ih _ hlt, List.take_append_drop]

/-- Helper: `chunksPos` of a non-empty list is non-empty. -/
theorem chunksPos_ne_nil (k : ℕ) {l : List ℚ} (h : l ≠ []) :
    chunksPos k l ≠ [] := by
  match l with
  | [] => exact absurd rfl h
  | x :: xs => rw [chunksPos_cons]; exact List.cons_ne_nil _ _

/-- Helper: every chunk except possibly the last has full length `k + 1`. -/
theorem chunksPos_dropLast_length (k : ℕ) (l : List ℚ) :
    ∀ seg ∈ (chunksPos k l).dropLast, seg.length = k + 1 := by
  suffices H : ∀ n : ℕ, ∀ l : List ℚ, l.length ≤ n →
      ∀ seg ∈ (chunksPos k l).dropLast, seg.length = k + 1 from
    H l.length l le_rfl
  intro n
  induction n with
  | zero =>
      intro l hl
      have : l = [] := List.length_eq_zero.mp (by omega)
      subst this
      simp [chunksPos_nil]
  | succ n ih =>
      intro l hl
      match l with
      | [] => simp [chunksPos_nil]
      | x :: xs =>
          rw [chunksPos_cons]
          by_cases hr : (x :: xs).drop (k + 1) = []
          · rw [hr, chunksPos_nil]
            simp
          · rw [List.dropLast_cons_of_ne_nil (chunksPos_ne_nil k hr)]
            intro seg hseg
            rcases List.mem_cons.mp hseg with hfirst | hrest
            · subst hfirst
              have hlen : k + 1 < (x :: xs).length := by
                by_contra hle
                exact hr (List.drop_eq_nil_of_le (by omega))
              rw [List.length_take]
              omega
            · have hlt : ((x :: xs).drop (k + 1)).length ≤ n := by
                simp only [List.length_drop, List.length_cons]
                simp only [List.length_cons] at hl
                omega
              exact ih _ hlt seg hrest

/-- Helper: the last chunk has length `l.length % (k+1)` unless the chunk
size divides the length evenly, in which case it is full. -/
theorem chunksPos_getLast_length (k : ℕ) (l : List ℚ) :
    ∀ lst : List ℚ, (chunksPos k l).getLast? = some lst →
      lst.length =
        if l.length % (k + 1) = 0 then k + 1 else l.length % (k + 1) := by
  suffices H : ∀ n : ℕ, ∀ l : List ℚ, l.length ≤ n → ∀ lst : List ℚ,
      (chunksPos k l).getLast? = some lst →
        lst.length =
          if l.length % (k + 1) = 0 then k + 1 else l.length % (k + 1) from
    H l.length l le_rfl
  intro n
  induction n with
  | zero =>
      intro l hl
      have : l = [] := List.length_eq_zero.mp (by omega)
      subst this
      simp [chunksPos_nil]
  | succ n ih =>
      intro l hl
      match l with
      | [] => simp [chunksPos_nil]
      | x :: xs =>
          intro lst hlst
          rw [chunksPos_cons] at hlst
          by_cases hr : (x :: xs).drop (k + 1) = []
          · rw [hr, chunksPos_nil] at hlst
            simp only [List.getLast?_singleton, Option.some.injEq] at hlst
            subst hlst
            have hle : (x :: xs).length ≤ k + 1 :=
              List.drop_eq_nil_iff.mp hr
            have hpos : 0 < (x :: xs).length := by simp
            rw [List.length_take]
            rcases Nat.lt_or_ge (x :: xs).length (k + 1) with hlt | hge
            · rw [Nat.mod_eq_of_lt hlt, if_neg (by omega)]
              omega
            · have heq : (x :: xs).length = k + 1 := by omega
              rw [heq, Nat.mod_self, if_pos rfl]
              omega
          · obtain ⟨r, rs, hrr⟩ := List.exists_cons_of_ne_nil
              (chunksPos_ne_nil k hr)
            rw [hrr, List.getLast?_cons_cons] at hlst
            rw [← hrr] at hlst
            have hlt : ((x :: xs).drop (k + 1)).length ≤ n := by
              simp only [List.length_drop, List.length_cons]
              simp only [List.length_cons] at hl
              omega
            have hrec := ih _ hlt lst hlst
            have hlen : k + 1 < (x :: xs).length := by
              by_contra hle
              exact hr (List.drop_eq_nil_of_le (by omega))
            rw [List.length_drop] at hrec
            have hmod : ((x :: xs).length - (k + 1)) % (k + 1) =
                (x :: xs).length % (k + 1) := by
              conv_rhs => rw [show (x :: xs).length =
                ((x :: xs).length - (k + 1)) + (k + 1) by omega]
              rw [Nat.add_mod_right]
            rw [hmod] at hrec
            exact hrec

/-- C4 counterexample: with sample rate 7 and interval 0.5 (both exactly
representable in binary floating point), `samples_per_interval =
int(3.5) = 3`, so a 4-sample signal is split as `[3, 1]`; the claim's
`round(0.5 * 7) = 4` does not describe the fixed segment length. -/
theorem segmentAudio_not_round :
    segmentAudio [0, 0, 0, 0] 7 (1/2) = some [[0, 0, 0], [0]] ∧
    (([0, 0, 0] : List ℚ).length : ℤ) ≠ round ((1/2 : ℚ) * 7) := by
  constructor
  · have hspi : pyInt ((1/2 : ℚ) * 7) = 3 := by norm_num [pyInt]
    have h1 : chunksPos 2 ([0, 0, 0, 0] : List ℚ) = [[0, 0, 0], [0]] := by
      rw [chunksPos_cons]
      norm_num
      rw [chunksPos_cons]
      norm_num [chunksPos_nil]
    simp only [segmentAudio, hspi]
    rw [show Int.toNat 3 - 1 = 2 from rfl]
    norm_num [h1]
  · norm_num [round_eq]

/-- C4 amended: whenever `samples_per_interval = int(intervalSeconds *
sampleRate)` is at least 1, the segmenter returns an ordered sequence whose
concatenation is the input signal (hence the lengths sum to the signal's
length and the tail is never dropped); every segment except possibly the
last has length `samples_per_interval` (truncation, not rounding), and the
last has length `L mod samplesPerInterval`, or the full interval length when
that divides evenly.  (With `samples_per_interval = 0` the source raises
`ValueError`, and with a negative value it returns no segments, so the
claim's unrestricted quantification over `intervalSeconds` needs this
hypothesis.) -/
theorem segmentAudio_spec (y : List ℚ) (sr interval : ℚ)
    (h : 1 ≤ pyInt (interval * sr)) :
    ∃ segs, segmentAudio y sr interval = some segs ∧
      segs.flatten = y ∧
      (segs.map List.length).sum = y.length ∧
      (∀ seg ∈ segs.dropLast, seg.length = (pyInt (interval * sr)).toNat) ∧
      (∀ lst, segs.getLast? = some lst →
        lst.length =
          if y.length % (pyInt (interval * sr)).toNat = 0
          then (pyInt (interval * sr)).toNat
          else y.length % (pyInt (interval * sr)).toNat) := by
  set spi := pyInt (interval * sr) with hspi
  have hne : ¬ spi = 0 := by omega
  have hneg : ¬ spi < 0 := by omega
  have hk : spi.toNat - 1 + 1 = spi.toNat := by omega
  refine ⟨chunksPos (spi.toNat - 1) y, ?_, ?_, ?_, ?_, ?_⟩
  · simp only [segmentAudio, ← hspi, if_neg hne, if_neg hneg]
  · exact chunksPos_flatten _ y
  · rw [← List.length_flatten, chunksPos_flatten]
  · intro seg hseg
    rw [← hk]
    exact chunksPos_dropLast_length _ y seg hseg
  · intro lst hlst
    rw [← hk]
    exact chunksPos_getLast_length _ y lst hlst

/-- Witness for C4's amended theorem: a 5-sample signal at sample rate 1
with a 2-second interval. -/
theorem segmentAudio_spec_witness :
    ∃ segs, segmentAudio [1, 2, 3, 4, 5] 1 2 = some segs ∧
      segs.flatten = [1, 2, 3, 4, 5] ∧
      (segs.map List.length).sum = ([1, 2, 3, 4, 5] : List ℚ).length ∧
      (∀ seg ∈ segs.dropLast, seg.length = (pyInt ((2 : ℚ) * 1)).toNat) ∧
      (∀ lst, segs.getLast? = some lst →
        lst.length =
          if ([1, 2, 3, 4, 5] : List ℚ).length % (pyInt ((2 : ℚ) * 1)).toNat = 0
          then (pyInt ((2 : ℚ) * 1)).toNat
          else ([1, 2, 3, 4, 5] : List ℚ).length % (pyInt ((2 : ℚ) * 1)).toNat) :=
  segmentAudio_spec [1, 2, 3, 4, 5] 1 2 (by norm_num [pyInt])

end QiratAI

namespace QiratAI

/-! ### Theorems about the silence-onset aligner -/

/-- Helper: when no element exceeds the threshold, `firstExceed` is `none`. -/
theorem firstExceed_eq_none {thr : ℚ} {l : List ℚ}
    (h : ∀ x ∈ l, ¬ thr < |x|) : firstExceed thr l = none := by
  induction l with
  | nil => rfl
  | cons x xs ih =>
      have hx := h x (by simp)
      rw [firstExceed, if_neg hx, ih (fun y hy => h y (by simp [hy]))]
      rfl

/-- Helper: when `firstExceed` is `none`, no element exceeds the
threshold. -/
theorem not_exceed_of_firstExceed_eq_none {thr : ℚ} {l : List ℚ}
    (h : firstExceed thr l = none) : ∀ x ∈ l, ¬ thr < |x| := by
  induction l with
  | nil => simp
  | cons x xs ih =>
      rw [firstExceed] at h
      by_cases hx : thr < |x|
      · rw [if_pos hx] at h
        cases h
      · rw [if_neg hx] at h
        have hxs := Option.map_eq_none'.mp h
        intro y hy
        rcases List.mem_cons.mp hy with rfl | hy'
        · exact hx
        · exact ih hxs y hy'

/-- Helper: a found onset index is a valid index. -/
theorem firstExceed_lt_length {thr : ℚ} {l : List ℚ} {k : ℕ}
    (h : firstExceed thr l = some k) : k < l.length := by
  induction l generalizing k with
  | nil => cases h
  | cons x xs ih =>
      rw [firstExceed] at h
      by_cases hx : thr < |x|
      · rw [if_pos hx] at h
        cases h
        simp
      · rw [if_neg hx] at h
        obtain ⟨j, hj, rfl⟩ := Option.map_eq_some'.mp h
        have := ih hj
        simp only [List.length_cons]
        omega

/-- Helper: taking a prefix that contains the onset preserves it. -/
theorem firstExceed_take {thr : ℚ} {l : List ℚ} {k n : ℕ}
    (h : firstExceed thr l = some k) (hn : k < n) :
    firstExceed thr (l.take n) = some k := by
  induction l generalizing k n with
  | nil => cases h
  | cons x xs ih =>
      rw [firstExceed] at h
      obtain ⟨m, rfl⟩ : ∃ m, n = m + 1 := ⟨n - 1, by omega⟩
      rw [List.take_succ_cons]
      by_cases hx : thr < |x|
      · rw [if_pos hx] at h
        cases h
        rw [firstExceed, if_pos hx]
      · rw [if_neg hx] at h
        obtain ⟨j, hj, rfl⟩ := Option.map_eq_some'.mp h
        rw [firstExceed, if_neg hx, ih hj (by omega)]
        rfl

/-- Helper: dropping a prefix that ends at or before the onset shifts it. -/
theorem firstExceed_drop {thr : ℚ} {l : List ℚ} {k m : ℕ}
    (h : firstExceed thr l = some k) (hm : m ≤ k) :
    firstExceed thr (l.drop m) = some (k - m) := by
  induction m generalizing l k with
  | zero => simpa using h
  | succ m ih =>
      match l with
      | [] => cases h
      | x :: xs =>
          rw [firstExceed] at h
          by_cases hx : thr < |x|
          · rw [if_pos hx] at h
            cases h
            omega
          · rw [if_neg hx] at h
            obtain ⟨j, hj, rfl⟩ := Option.map_eq_some'.mp h
            rw [List.drop_succ_cons]
            rw [show j + 1 - (m + 1) = j - m by omega]
            exact ih hj (by omega)

/-- Helper: the onset of the aligned reference never exceeds the user's
onset, so re-aligning gives a zero offset (truncated subtraction). -/
theorem onset_aligned_le (user ref : List ℚ) (thr : ℚ) :
    onsetIndex ((ref.drop (onsetIndex ref thr -
      onsetIndex user thr)).take user.length) thr ≤ onsetIndex user thr := by
  rcases hfr : firstExceed thr ref with _ | r
  · -- the reference never exceeds the threshold: neither does any slice
    have hr0 : onsetIndex ref thr = 0 := by simp [onsetIndex, hfr]
    rw [hr0, Nat.zero_sub, List.drop_zero]
    have hnone : firstExceed thr (ref.take user.length) = none := by
      apply firstExceed_eq_none
      intro x hx
      exact not_exceed_of_firstExceed_eq_none hfr x (List.mem_of_mem_take hx)
    simp [onsetIndex, hnone]
  · have hr : onsetIndex ref thr = r := by simp [onsetIndex, hfr]
    rcases hfu : firstExceed thr user with _ | k
    · -- silent user signal: its onset is 0, and the aligned reference
      -- begins exactly at the reference onset
      have hu : onsetIndex user thr = 0 := by simp [onsetIndex, hfu]
      rw [hr, hu, Nat.sub_zero]
      have hdrop : firstExceed thr (ref.drop r) = some 0 := by
        simpa using firstExceed_drop hfr le_rfl
      rcases Nat.eq_zero_or_pos user.length with hlen | hlen
      · rw [hlen]
        simp [onsetIndex, List.take_zero, firstExceed]
      · have ht := firstExceed_take hdrop hlen
        simp [onsetIndex, ht]
    · have hu : onsetIndex user thr = k := by simp [onsetIndex, hfu]
      have hk : k < user.length := firstExceed_lt_length hfu
      rw [hr, hu]
      by_cases hru : r ≤ k
      · rw [Nat.sub_eq_zero_of_le hru, List.drop_zero]
        have ht := firstExceed_take hfr (by omega : r < user.length)
        simp [onsetIndex, ht]
        omega
      · have hdrop : firstExceed thr (ref.drop (r - k)) = some k := by
          have hd := firstExceed_drop hfr (by omega : r - k ≤ r)
          rwa [show r - (r - k) = k by omega] at hd
        have ht := firstExceed_take hdrop hk
        simp [onsetIndex, ht]

/-- C8: `align` is idempotent — aligning the user signal against the aligned
reference produced by a first call, with the same threshold, yields
offset 0. -/
theorem align_idempotent (user ref : List ℚ) (thr : ℚ) (h : 0 < thr) :
    (alignByFirstWord user (alignByFirstWord user ref thr).1 thr).2 = 0 := by
  have key := onset_aligned_le user ref thr
  have h1 : (alignByFirstWord user ref thr).1 =
      (ref.drop (onsetIndex ref thr - onsetIndex user thr)).take
        user.length := rfl
  have h2 : (alignByFirstWord user (alignByFirstWord user ref thr).1 thr).2 =
      onsetIndex (alignByFirstWord user ref thr).1 thr -
        onsetIndex user thr := rfl
  rw [h2, h1]
  exact Nat.sub_eq_zero_of_le key

/-- Witness for C8 at user `[0, 1]`, reference `[0, 0, 1]`, threshold 1/2. -/
theorem align_idempotent_witness :
    (alignByFirstWord [0, 1]
      ((alignByFirstWord [0, 1] [0, 0, 1] (1/2)).1) (1/2)).2 = 0 :=
  align_idempotent [0, 1] [0, 0, 1] (1/2) (by norm_num)

end QiratAI
